import Mathlib

/-!
Verification of the `transaction` crate's combinator algebra.

A Rust `Transaction` value is a node whose only observable behaviour is
`fn run(&self, ctx: &mut Ctx) -> Result<Item, Err>`.  We embed a node
shallowly as the state-passing function of its `run` method: it receives
the context, returns the `Result` together with the updated context.
`Result<T, E>` becomes `Except E T`.  Each combinator below is the direct
translation of the corresponding `run` implementation in
`src/transaction/src/*.rs`.
-/

namespace Txn

/-- A transaction over context `Ctx` with item type `T` and error type `E`:
the shallow embedding of `run(&self, ctx: &mut Ctx) -> Result<Item, Err>`. -/
abbrev Tx (Ctx T E : Type) : Type := Ctx → Except E T × Ctx

variable {Ctx S T E A B : Type}

/-- `TxOk::run` (ok.rs): `Ok(self.ok.clone())`, context untouched. -/
def ok (v : T) : Tx Ctx T E := fun c => (Except.ok v, c)

/-- `TxErr::run` (err.rs): `Err(self.err.clone())`, context untouched. -/
def err (e : E) : Tx Ctx T E := fun c => (Except.error e, c)

/-- `Map::run` (map.rs): `tx.run(ctx).map(f)`. -/
def map (tx : Tx Ctx A E) (f : A → B) : Tx Ctx B E := fun c =>
  match tx c with
  | (r, c2) => (r.map f, c2)

/-- `AndThen::run` (and_then.rs):
`tx.run(ctx).and_then(|item| f(item).into_transaction().run(ctx))`.
`Result::and_then` returns `Err(e)` without calling the closure when the
first run failed. -/
def and_then (tx : Tx Ctx A E) (f : A → Tx Ctx B E) : Tx Ctx B E := fun c =>
  match tx c with
  | (Except.ok v, c2) => f v c2
  | (Except.error e, c2) => (Except.error e, c2)

/-- `Abort::run` (abort.rs): `Ok(r) => Err(f(r)), Err(e) => Err(e)`.
The item type `B` of the abort node is a phantom, as in the Rust struct. -/
def abort (tx : Tx Ctx A E) (f : A → E) : Tx Ctx B E := fun c =>
  match tx c with
  | (Except.ok r, c2) => (Except.error (f r), c2)
  | (Except.error e, c2) => (Except.error e, c2)

/-- `Recover::run` (recover.rs): `r @ Ok(_) => r, Err(e) => Ok(f(e))`. -/
def recover (tx : Tx Ctx A E) (f : E → A) : Tx Ctx A E := fun c =>
  match tx c with
  | (Except.ok r, c2) => (Except.ok r, c2)
  | (Except.error e, c2) => (Except.ok (f e), c2)

/-- `Join::run` (join.rs): `match (tx1.run(ctx), tx2.run(ctx))` — a Rust
tuple expression evaluates both components left to right before the match,
so both children always run.  The or-pattern `(Err(e), _) | (_, Err(e))`
tries its left alternative first, so a failure of `tx1` wins the tie. -/
def join (tx1 : Tx Ctx A E) (tx2 : Tx Ctx B E) : Tx Ctx (A × B) E := fun c =>
  match tx1 c with
  | (r1, c1) =>
    match tx2 c1 with
    | (r2, c2) =>
      match r1, r2 with
      | Except.ok a, Except.ok b => (Except.ok (a, b), c2)
      | Except.error e, _ => (Except.error e, c2)
      | _, Except.error e => (Except.error e, c2)

/-- `JoinVec::run` (join_vec.rs):
`vec.iter().map(|tx| tx.run(ctx)).collect::<Result<Vec<_>, _>>()`.
Rust iterators are lazy and `FromIterator for Result` stops pulling items
at the first `Err`, so a child after the first failing one is never run:
the recursion below stops threading the context at the first error. -/
def join_vec : List (Tx Ctx T E) → Tx Ctx (List T) E
  | [], c => (Except.ok [], c)
  | tx :: rest, c =>
    match tx c with
    | (Except.error e, c2) => (Except.error e, c2)
    | (Except.ok v, c2) =>
      match join_vec rest c2 with
      | (Except.error e2, c3) => (Except.error e2, c3)
      | (Except.ok vs, c3) => (Except.ok (v :: vs), c3)

/-- The loop body of `Retry::run` (retry.rs): `for i in 0..n`, run `f(i)`,
return the first `Ok` immediately, otherwise `ret.push(e)` and continue;
after the loop return `Err(ret)`.  `i` is the next attempt index, `fuel`
the number of remaining iterations, `acc` the vector `ret` so far. -/
def retryAux (f : Nat → Tx Ctx T E) : Nat → Nat → List E → Ctx → Except (List E) T × Ctx
  | _, 0, acc, c => (Except.error acc, c)
  | i, fuel + 1, acc, c =>
    match f i c with
    | (Except.ok t, c2) => (Except.ok t, c2)
    | (Except.error e, c2) => retryAux f (i + 1) fuel (acc ++ [e]) c2

/-- `Retry::run` (retry.rs). -/
def retry (n : Nat) (f : Nat → Tx Ctx T E) : Tx Ctx T (List E) := fun c =>
  retryAux f 0 n [] c

/-- The loop body of `Repeat::run` (repeat.rs): `for i in 0..n`, run `f(i)`
with `?` (abort on the first error), `ret.push(t)` on success; after the
loop return `Ok(ret)`. -/
def repeatAux (f : Nat → Tx Ctx T E) : Nat → Nat → List T → Ctx → Except E (List T) × Ctx
  | _, 0, acc, c => (Except.ok acc, c)
  | i, fuel + 1, acc, c =>
    match f i c with
    | (Except.ok t, c2) => repeatAux f (i + 1) fuel (acc ++ [t]) c2
    | (Except.error e, c2) => (Except.error e, c2)

/-- `Repeat::run` (repeat.rs).  The Rust function is named `repeat`, which
is a reserved token in Lean, hence the quoted identifier. -/
def «repeat» (n : Nat) (f : Nat → Tx Ctx T E) : Tx Ctx (List T) E := fun c =>
  repeatAux f 0 n [] c

/-- The `Loop` signal of loop_fn.rs: `Break(T)` or `Continue(S)`. -/
inductive Loop (S T : Type) where
  | Break : T → Loop S T
  | Continue : S → Loop S T

/-- The `LoopFn` node of loop_fn.rs: it stores `tx` (the transaction built
from the initial state) alongside the callback `f`. -/
structure LoopFn (Ctx S T E : Type) where
  tx : Tx Ctx (Loop S T) E
  f : S → Tx Ctx (Loop S T) E

/-- `loop_fn` (loop_fn.rs): `LoopFn { tx: f(initial_state).into_transaction(), f: f }` —
`f` is called once, at construction, on the initial state. -/
def loop_fn (initial_state : S) (f : S → Tx Ctx (Loop S T) E) : LoopFn Ctx S T E :=
  { tx := f initial_state, f := f }

/-- The `loop { ... }` of `LoopFn::run` (loop_fn.rs), acting on the result
`ret` of the previous iteration: `Err` returns immediately (`?`), `Break(t)`
returns `Ok(t)`, `Continue(s)` sets `ret = f(s).into_transaction().run(ctx)`
and loops.  The Rust loop is unbounded; `fuel` bounds the number of
`Continue` steps the embedding will take, and `none` means the bound was
reached (the Rust code would still be looping). -/
def loopGo (f : S → Tx Ctx (Loop S T) E) :
    Nat → Except E (Loop S T) × Ctx → Option (Except E T × Ctx)
  | _, (Except.error e, c) => some (Except.error e, c)
  | _, (Except.ok (Loop.Break t), c) => some (Except.ok t, c)
  | 0, (Except.ok (Loop.Continue _), _) => none
  | fuel + 1, (Except.ok (Loop.Continue s), c) => loopGo f fuel (f s c)

/-- `LoopFn::run` (loop_fn.rs): `let mut ret = tx.run(ctx)?;` then the loop —
every run starts by running the stored transaction `tx`. -/
def LoopFn.run (l : LoopFn Ctx S T E) (fuel : Nat) (c : Ctx) : Option (Except E T × Ctx) :=
  loopGo l.f fuel (l.tx c)

/-- Running one node `n` times in sequence against a threaded context,
collecting the outcome of every run (the trait allows repeated `run`). -/
def runMany (tx : Tx Ctx T E) : Nat → Ctx → List (Except E T) × Ctx
  | 0, c => ([], c)
  | n + 1, c =>
    match tx c with
    | (r, c2) =>
      match runMany tx n c2 with
      | (rs, c3) => (r :: rs, c3)

/-- The context seen by attempt number `j` of an indexed family
`f : Nat → Tx Ctx T E` whose first run starts at index `i` on context `c`
and whose attempts are run back to back (as in `Retry::run`/`Repeat::run`):
`attemptCtx f i c j` is the context before attempt `i + j`. -/
def attemptCtx (f : Nat → Tx Ctx T E) (i : Nat) (c : Ctx) : Nat → Ctx
  | 0 => c
  | j + 1 => (f (i + j) (attemptCtx f i c j)).2

theorem attemptCtx_shift (f : Nat → Tx Ctx T E) (i : Nat) (c : Ctx) :
    ∀ j, attemptCtx f (i + 1) (f i c).2 j = attemptCtx f i c (j + 1) := by
  intro j
  induction j with
  | zero => simp [attemptCtx]
  | succ j ih =>
      have harith : i + 1 + j = i + (j + 1) := by omega
      simp only [attemptCtx, ih, harith]

-- Fixtures: concrete transactions over a log of visited child ids
-- (`Ctx = List Nat`), used to exhibit which children actually ran.

/-- A child that appends `0` to the log and fails with error `7`. -/
def logErr : Tx (List Nat) Nat Nat := fun c => (Except.error 7, c ++ [0])

/-- A child that appends `1` to the log and succeeds with item `1`. -/
def logOk : Tx (List Nat) Nat Nat := fun c => (Except.ok 1, c ++ [1])

/-- C1 counterexample: `join_vec [logErr, logOk]` on the empty log fails
with `logErr`'s error and leaves the log at `[0]`: the second child never
ran, although running it on `[0]` would have appended `1` (second
conjunct).  This contradicts the claim that every later child still runs
after an earlier child fails. -/
theorem join_vec_counterexample :
    join_vec [logErr, logOk] [] = (Except.error 7, [0]) ∧
    logOk [0] = (Except.ok 1, [0, 1]) :=
  ⟨rfl, rfl⟩

/-- C1 amended: `join_vec` runs its children left to right but stops at the
first failing child — children after it are not run and the context stops
being threaded there; the error is the first failing child's error, and on
all-success the result is the ordered list of the items. -/
theorem join_vec_amended (tx : Tx Ctx T E) (rest : List (Tx Ctx T E)) (c : Ctx) :
    join_vec ([] : List (Tx Ctx T E)) c = (Except.ok [], c) ∧
    (∀ e c2, tx c = (Except.error e, c2) →
      join_vec (tx :: rest) c = (Except.error e, c2)) ∧
    (∀ v c2, tx c = (Except.ok v, c2) →
      join_vec (tx :: rest) c =
        ((join_vec rest c2).1.map (fun vs => v :: vs), (join_vec rest c2).2)) := by
  refine ⟨rfl, ?_, ?_⟩
  · intro e c2 h
    simp only [join_vec, h]
  · intro v c2 h
    simp only [join_vec, h]
    rcases hrest : join_vec rest c2 with ⟨r, c3⟩
    cases r <;> simp [Except.map]

/-- C1 amended, witness: the error case of `join_vec_amended` evaluated on
the singleton list `[logErr]` and the empty log. -/
theorem join_vec_amended_witness :
    join_vec [logErr] [] = (Except.error 7, [0]) :=
  (join_vec_amended logErr [] []).2.1 7 [0] rfl

/-- C2: `join` runs both children unconditionally against the threaded
context (the final context is always the one produced by running `tx2`
after `tx1`); if both succeed the item is the pair, if `tx1` fails its
error is returned even when `tx2` also fails, and if only `tx2` fails its
error is returned. -/
theorem join_spec (tx1 : Tx Ctx A E) (tx2 : Tx Ctx B E) (c : Ctx) :
    (∀ a c1 b c2, tx1 c = (Except.ok a, c1) → tx2 c1 = (Except.ok b, c2) →
      join tx1 tx2 c = (Except.ok (a, b), c2)) ∧
    (∀ e c1, tx1 c = (Except.error e, c1) →
      join tx1 tx2 c = (Except.error e, (tx2 c1).2)) ∧
    (∀ a c1 e c2, tx1 c = (Except.ok a, c1) → tx2 c1 = (Except.error e, c2) →
      join tx1 tx2 c = (Except.error e, c2)) := by
  refine ⟨?_, ?_, ?_⟩
  · intro a c1 b c2 h1 h2
    simp only [join, h1, h2]
  · intro e c1 h1
    rcases h2 : tx2 c1 with ⟨r2, c2⟩
    cases r2 <;> simp only [join, h1, h2]
  · intro a c1 e c2 h1 h2
    simp only [join, h1, h2]

/-- A second logging child that appends `2` to the log and fails with `9`. -/
def logErr2 : Tx (List Nat) Nat Nat := fun c => (Except.error 9, c ++ [2])

/-- C2 witness: both children fail; the result is the first child's error
`7`, yet the second child still ran (the log ends `[0, 2]`). -/
theorem join_spec_witness :
    join logErr logErr2 [] = (Except.error 7, [0, 2]) :=
  (join_spec logErr logErr2 []).2.1 7 [0] rfl

/-- C6: `and_then` runs `tx` first; on failure the continuation is never
consulted (the overall outcome is `tx`'s error and `tx`'s final context,
for every continuation `f`), and on success the overall outcome is that of
running `f item` on the context `tx` left behind. -/
theorem and_then_spec (tx : Tx Ctx A E) (f : A → Tx Ctx B E) (c : Ctx) :
    (∀ e c2, tx c = (Except.error e, c2) →
      and_then tx f c = (Except.error e, c2)) ∧
    (∀ v c2, tx c = (Except.ok v, c2) →
      and_then tx f c = f v c2) := by
  constructor
  · intro e c2 h
    simp only [and_then, h]
  · intro v c2 h
    simp only [and_then, h]

/-- C6 witness: a failing first transaction short-circuits `and_then`; the
continuation (here `fun x => logOk`) leaves no trace in the log. -/
theorem and_then_spec_witness :
    and_then logErr (fun _ => logOk) [] = (Except.error 7, [0]) :=
  (and_then_spec logErr (fun _ => logOk) []).1 7 [0] rfl

/-- C7: `abort` always fails: a success `r` of the inner transaction is
turned into `Err (f r)`, an inner failure is passed through, and no run of
an abort node ever produces `Ok`. -/
theorem abort_spec (tx : Tx Ctx A E) (f : A → E) (c : Ctx) :
    (∀ r c2, tx c = (Except.ok r, c2) →
      (abort tx f : Tx Ctx B E) c = (Except.error (f r), c2)) ∧
    (∀ e c2, tx c = (Except.error e, c2) →
      (abort tx f : Tx Ctx B E) c = (Except.error e, c2)) ∧
    (∀ (v : B) c2, (abort tx f : Tx Ctx B E) c ≠ (Except.ok v, c2)) := by
  refine ⟨?_, ?_, ?_⟩
  · intro r c2 h
    simp only [abort, h]
  · intro e c2 h
    simp only [abort, h]
  · intro v c2
    rcases h : tx c with ⟨r, c3⟩
    cases r <;> simp [abort, h]

/-- C7 witness: aborting a successful transaction (`logOk`, item `1`)
with `f = (· + 10)` fails with `11`; the inner effect still occurred. -/
theorem abort_spec_witness :
    (abort logOk (fun r => r + 10) : Tx (List Nat) Nat Nat) [] =
      (Except.error 11, [1]) :=
  (abort_spec logOk (fun r => r + 10) []).1 1 [1] rfl

/-- C8: round-trip identities.  `recover` on an `ok` leaf yields the value
unchanged for every recovery function `f` (so `f` is never consulted), and
`map` on an `err` leaf yields the error unchanged for every mapping
function `g`; in both cases the context is untouched. -/
theorem recover_map_roundtrip (x : A) (e : E) (f : E → A) (g : A → B) (c : Ctx) :
    recover (ok x) f c = (Except.ok x, c) ∧
    map (err e : Tx Ctx A E) g c = (Except.error e, c) :=
  ⟨rfl, rfl⟩

/-- C9: the leaf nodes `ok v` and `err e` neither read nor modify the
context, and running the same node any number of times produces the same
outcome on every run while leaving the context exactly as it was. -/
theorem ok_err_frame (v : T) (e : E) (c : Ctx) (n : Nat) :
    (ok v : Tx Ctx T E) c = (Except.ok v, c) ∧
    (err e : Tx Ctx T E) c = (Except.error e, c) ∧
    runMany (ok v : Tx Ctx T E) n c = (List.replicate n (Except.ok v), c) ∧
    runMany (err e : Tx Ctx T E) n c = (List.replicate n (Except.error e), c) := by
  refine ⟨rfl, rfl, ?_, ?_⟩
  · induction n with
    | zero => rfl
    | succ n ih => simp [runMany, ok, ih, List.replicate]
  · induction n with
    | zero => rfl
    | succ n ih => simp [runMany, err, ih, List.replicate]

/-- The callback of the loop scenario: its invocation counter lives in the
context (`Ctx = Nat`); each invocation's transaction bumps the counter, and
the callback signals `Continue` while the counter is below 3, then
`Break(counter)`.  The loop state `s` is carried along untouched. -/
def f5 : Nat → Tx Nat (Loop Nat Nat) Nat := fun s c =>
  if c < 3 then (Except.ok (Loop.Continue s), c + 1)
  else (Except.ok (Loop.Break c), c + 1)

/-- C5: with the counter-driven callback `f5`, `loop_fn s0 f5` yields
`Ok 3` whatever the initial state `s0` is, after exactly 4 invocations
(final counter 4, one invocation from construction plus three from the
loop); and in general the loop feeds every `Continue` state back into `f`,
returns `t` on the first `Break t`, and propagates an `Err` immediately. -/
theorem loop_fn_spec (f : S → Tx Ctx (Loop S T) E) (fuel : Nat) (s : S) (t : T)
    (e : E) (c : Ctx) :
    (∀ s0 : Nat, LoopFn.run (loop_fn s0 f5) 10 0 = some (Except.ok 3, 4)) ∧
    loopGo f fuel (Except.ok (Loop.Break t), c) = some (Except.ok t, c) ∧
    loopGo f (fuel + 1) (Except.ok (Loop.Continue s), c) = loopGo f fuel (f s c) ∧
    loopGo f fuel (Except.error e, c) = some (Except.error e, c) := by
  refine ⟨fun s0 => rfl, ?_, rfl, ?_⟩ <;> cases fuel <;> rfl

/-- C10: `loop_fn s0 f` invokes `f` on `s0` once, at construction, and
stores the resulting transaction in the node's `tx` field; every run of the
node (with any fuel, against any context) begins by running that stored
transaction, while each later iteration rebuilds a fresh transaction by
applying `f` to the latest `Continue` state. -/
theorem loop_fn_construction (s0 : S) (f : S → Tx Ctx (Loop S T) E) :
    (loop_fn s0 f).tx = f s0 ∧
    (loop_fn s0 f).f = f ∧
    (∀ (fuel : Nat) (c : Ctx),
      LoopFn.run (loop_fn s0 f) fuel c = loopGo f fuel (f s0 c)) ∧
    (∀ (fuel : Nat) (s : S) (c : Ctx),
      loopGo f (fuel + 1) (Except.ok (Loop.Continue s), c) = loopGo f fuel (f s c)) :=
  ⟨rfl, rfl, fun _ _ => rfl, fun _ _ _ => rfl⟩

theorem retryAux_all_fail (f : Nat → Tx Ctx T E) (errs : Nat → E) :
    ∀ (fuel i : Nat) (acc : List E) (c : Ctx),
      (∀ j, j < fuel → (f (i + j) (attemptCtx f i c j)).1 = Except.error (errs (i + j))) →
      retryAux f i fuel acc c =
        (Except.error (acc ++ (List.range fuel).map (fun j => errs (i + j))),
          attemptCtx f i c fuel) := by
  intro fuel
  induction fuel with
  | zero =>
      intro i acc c _
      simp [retryAux, attemptCtx]
  | succ fuel ih =>
      intro i acc c h
      have h0 : (f i c).1 = Except.error (errs i) := by
        have h1 := h 0 (Nat.succ_pos _)
        simpa [attemptCtx] using h1
      rcases hfc : f i c with ⟨r, c2⟩
      rw [hfc] at h0
      subst h0
      simp only [retryAux, hfc]
      have hc2 : c2 = (f i c).2 := by rw [hfc]
      have hstep := ih (i + 1) (acc ++ [errs i]) c2 (by
        intro j hj
        have hsh : attemptCtx f (i + 1) c2 j = attemptCtx f i c (j + 1) := by
          rw [hc2, attemptCtx_shift]
        rw [hsh, show i + 1 + j = i + (j + 1) by omega]
        exact h (j + 1) (by omega))
      rw [hstep, hc2, attemptCtx_shift]
      have hfun : ((List.range fuel).map fun j => errs (i + 1 + j)) =
          ((List.range fuel).map fun j => errs (i + (j + 1))) := by
        refine List.map_congr_left ?_
        intro j _
        rw [show i + 1 + j = i + (j + 1) by omega]
      rw [hfun]
      have hrange : ((List.range (fuel + 1)).map fun j => errs (i + j)) =
          errs i :: ((List.range fuel).map fun j => errs (i + (j + 1))) := by
        rw [List.range_succ_eq_map, List.map_cons, List.map_map]
        simp [Function.comp]
      rw [hrange, List.append_assoc, List.singleton_append]

theorem retryAux_first_ok (f : Nat → Tx Ctx T E) (errs : Nat → E) (v : T) :
    ∀ (k fuel i : Nat) (acc : List E) (c : Ctx), k < fuel →
      (∀ j, j < k → (f (i + j) (attemptCtx f i c j)).1 = Except.error (errs (i + j))) →
      (f (i + k) (attemptCtx f i c k)).1 = Except.ok v →
      retryAux f i fuel acc c = (Except.ok v, attemptCtx f i c (k + 1)) := by
  intro k
  induction k with
  | zero =>
      intro fuel i acc c hk _ hok
      obtain ⟨fuel, rfl⟩ : ∃ m, fuel = m + 1 := ⟨fuel - 1, by omega⟩
      simp only [Nat.add_zero] at hok
      rcases hfc : f i c with ⟨r, c2⟩
      rw [show attemptCtx f i c 0 = c from rfl, hfc] at hok
      subst hok
      simp only [retryAux, hfc]
      simp [attemptCtx, hfc]
  | succ k ih =>
      intro fuel i acc c hk h hok
      obtain ⟨fuel, rfl⟩ : ∃ m, fuel = m + 1 := ⟨fuel - 1, by omega⟩
      have h0 : (f i c).1 = Except.error (errs i) := by
        have h1 := h 0 (Nat.succ_pos _)
        simpa [attemptCtx] using h1
      rcases hfc : f i c with ⟨r, c2⟩
      rw [hfc] at h0
      subst h0
      simp only [retryAux, hfc]
      have hc2 : c2 = (f i c).2 := by rw [hfc]
      have hstep := ih fuel (i + 1) (acc ++ [errs i]) c2 (by omega)
        (by
          intro j hj
          have hsh : attemptCtx f (i + 1) c2 j = attemptCtx f i c (j + 1) := by
            rw [hc2, attemptCtx_shift]
          rw [hsh, show i + 1 + j = i + (j + 1) by omega]
          exact h (j + 1) (by omega))
        (by
          have hsh : attemptCtx f (i + 1) c2 k = attemptCtx f i c (k + 1) := by
            rw [hc2, attemptCtx_shift]
          rw [hsh, show i + 1 + k = i + (k + 1) by omega]
          exact hok)
      rw [hstep, hc2, attemptCtx_shift]

theorem repeatAux_all_ok (f : Nat → Tx Ctx T E) (items : Nat → T) :
    ∀ (fuel i : Nat) (acc : List T) (c : Ctx),
      (∀ j, j < fuel → (f (i + j) (attemptCtx f i c j)).1 = Except.ok (items (i + j))) →
      repeatAux f i fuel acc c =
        (Except.ok (acc ++ (List.range fuel).map (fun j => items (i + j))),
          attemptCtx f i c fuel) := by
  intro fuel
  induction fuel with
  | zero =>
      intro i acc c _
      simp [repeatAux, attemptCtx]
  | succ fuel ih =>
      intro i acc c h
      have h0 : (f i c).1 = Except.ok (items i) := by
        have h1 := h 0 (Nat.succ_pos _)
        simpa [attemptCtx] using h1
      rcases hfc : f i c with ⟨r, c2⟩
      rw [hfc] at h0
      subst h0
      simp only [repeatAux, hfc]
      have hc2 : c2 = (f i c).2 := by rw [hfc]
      have hstep := ih (i + 1) (acc ++ [items i]) c2 (by
        intro j hj
        have hsh : attemptCtx f (i + 1) c2 j = attemptCtx f i c (j + 1) := by
          rw [hc2, attemptCtx_shift]
        rw [hsh, show i + 1 + j = i + (j + 1) by omega]
        exact h (j + 1) (by omega))
      rw [hstep, hc2, attemptCtx_shift]
      have hfun : ((List.range fuel).map fun j => items (i + 1 + j)) =
          ((List.range fuel).map fun j => items (i + (j + 1))) := by
        refine List.map_congr_left ?_
        intro j _
        rw [show i + 1 + j = i + (j + 1) by omega]
      rw [hfun]
      have hrange : ((List.range (fuel + 1)).map fun j => items (i + j)) =
          items i :: ((List.range fuel).map fun j => items (i + (j + 1))) := by
        rw [List.range_succ_eq_map, List.map_cons, List.map_map]
        simp [Function.comp]
      rw [hrange, List.append_assoc, List.singleton_append]

theorem repeatAux_first_err (f : Nat → Tx Ctx T E) (items : Nat → T) (e : E) :
    ∀ (k fuel i : Nat) (acc : List T) (c : Ctx), k < fuel →
      (∀ j, j < k → (f (i + j) (attemptCtx f i c j)).1 = Except.ok (items (i + j))) →
      (f (i + k) (attemptCtx f i c k)).1 = Except.error e →
      repeatAux f i fuel acc c = (Except.error e, attemptCtx f i c (k + 1)) := by
  intro k
  induction k with
  | zero =>
      intro fuel i acc c hk _ herr
      obtain ⟨fuel, rfl⟩ : ∃ m, fuel = m + 1 := ⟨fuel - 1, by omega⟩
      simp only [Nat.add_zero] at herr
      rcases hfc : f i c with ⟨r, c2⟩
      rw [show attemptCtx f i c 0 = c from rfl, hfc] at herr
      subst herr
      simp only [repeatAux, hfc]
      simp [attemptCtx, hfc]
  | succ k ih =>
      intro fuel i acc c hk h herr
      obtain ⟨fuel, rfl⟩ : ∃ m, fuel = m + 1 := ⟨fuel - 1, by omega⟩
      have h0 : (f i c).1 = Except.ok (items i) := by
        have h1 := h 0 (Nat.succ_pos _)
        simpa [attemptCtx] using h1
      rcases hfc : f i c with ⟨r, c2⟩
      rw [hfc] at h0
      subst h0
      simp only [repeatAux, hfc]
      have hc2 : c2 = (f i c).2 := by rw [hfc]
      have hstep := ih fuel (i + 1) (acc ++ [items i]) c2 (by omega)
        (by
          intro j hj
          have hsh : attemptCtx f (i + 1) c2 j = attemptCtx f i c (j + 1) := by
            rw [hc2, attemptCtx_shift]
          rw [hsh, show i + 1 + j = i + (j + 1) by omega]
          exact h (j + 1) (by omega))
        (by
          have hsh : attemptCtx f (i + 1) c2 k = attemptCtx f i c (k + 1) := by
            rw [hc2, attemptCtx_shift]
          rw [hsh, show i + 1 + k = i + (k + 1) by omega]
          exact herr)
      rw [hstep, hc2, attemptCtx_shift]

/-- C3: `retry n f` runs attempts `f 0, f 1, ...` back to back against the
threaded context.  If every one of the `n` attempts fails, the result is
`Err` of the ordered list of exactly the `n` errors in attempt order
(attempt 0 first) and all `n` attempts ran; if the attempts before `k` fail
and attempt `k < n` succeeds with `v`, the result is `Ok v` and the final
context is the one right after attempt `k` — no attempt after `k` runs. -/
theorem retry_spec (n : Nat) (f : Nat → Tx Ctx T E) (c : Ctx) (errs : Nat → E) (v : T) :
    ((∀ i, i < n → (f i (attemptCtx f 0 c i)).1 = Except.error (errs i)) →
      retry n f c = (Except.error ((List.range n).map errs), attemptCtx f 0 c n)) ∧
    (∀ k, k < n →
      (∀ i, i < k → (f i (attemptCtx f 0 c i)).1 = Except.error (errs i)) →
      (f k (attemptCtx f 0 c k)).1 = Except.ok v →
      retry n f c = (Except.ok v, attemptCtx f 0 c (k + 1))) := by
  constructor
  · intro h
    have hmain := retryAux_all_fail f errs n 0 [] c (by
      intro j hj
      simpa using h j hj)
    simpa [retry] using hmain
  · intro k hk h hok
    have hmain := retryAux_first_ok f errs v k n 0 [] c hk
      (by
        intro j hj
        simpa using h j hj)
      (by simpa using hok)
    simpa [retry] using hmain

/-- An attempt family that always fails: attempt `i` bumps the context
counter and fails with error `i + 10`. -/
def failFam : Nat → Tx Nat Nat Nat := fun i c => (Except.error (i + 10), c + 1)

/-- C3 witness: two attempts of `failFam` from counter 0 both fail, and
`retry` returns exactly the two errors `[10, 11]` in attempt order, with
the counter at 2 showing both attempts ran. -/
theorem retry_spec_witness :
    retry 2 failFam 0 = (Except.error [10, 11], 2) :=
  (retry_spec 2 failFam 0 (fun i => i + 10) 0).1 (fun _ _ => rfl)

/-- C4: `repeat n f` runs iterations `f 0, f 1, ...` back to back against
the threaded context.  If all `n` iterations succeed, the result is `Ok` of
the ordered list of the `n` items in iteration order; if the iterations
before `k` succeed and iteration `k < n` fails with `e`, the result is
exactly `Err e` (a single error, not a collection) and the final context is
the one right after iteration `k` — no iteration after `k` runs. -/
theorem repeat_spec (n : Nat) (f : Nat → Tx Ctx T E) (c : Ctx) (items : Nat → T) (e : E) :
    ((∀ i, i < n → (f i (attemptCtx f 0 c i)).1 = Except.ok (items i)) →
      «repeat» n f c = (Except.ok ((List.range n).map items), attemptCtx f 0 c n)) ∧
    (∀ k, k < n →
      (∀ i, i < k → (f i (attemptCtx f 0 c i)).1 = Except.ok (items i)) →
      (f k (attemptCtx f 0 c k)).1 = Except.error e →
      «repeat» n f c = (Except.error e, attemptCtx f 0 c (k + 1))) := by
  constructor
  · intro h
    have hmain := repeatAux_all_ok f items n 0 [] c (by
      intro j hj
      simpa using h j hj)
    simpa [«repeat»] using hmain
  · intro k hk h herr
    have hmain := repeatAux_first_err f items e k n 0 [] c hk
      (by
        intro j hj
        simpa using h j hj)
      (by simpa using herr)
    simpa [«repeat»] using hmain

/-- An iteration family that always succeeds: iteration `i` bumps the
context counter and yields item `2 * i`. -/
def okFam : Nat → Tx Nat Nat Nat := fun i c => (Except.ok (2 * i), c + 1)

/-- C4 witness: three iterations of `okFam` from counter 0 all succeed and
`repeat` collects `[0, 2, 4]` in iteration order, the counter at 3 showing
all three iterations ran. -/
theorem repeat_spec_witness :
    «repeat» 3 okFam 0 = (Except.ok [0, 2, 4], 3) :=
  (repeat_spec 3 okFam 0 (fun i => 2 * i) 0).1 (fun _ _ => rfl)

end Txn
